import Mathlib

/-!
Shallow embedding of `src/librustc_typeck/check/generator_interior.rs`:
the generator-interior analysis (`InteriorVisitor` and `resolve_interior`).

Types, extents, node ids, spans and obligations are opaque interned handles
in the source; we model them as `Nat`.  The external collaborators
(`yield_in_extent` on the type context, `resolve_type_vars_if_possible`,
`region_maps.var_scope`, `region_maps.temporary_scope`, `pat_ty`,
`expr_ty_adjusted`, `intern_tup`, and the unifier `eq`) are fields of an
environment record `Env`.  The in-core state (`cache`, `types` of
`InteriorVisitor`) is the record `VState`.
-/

namespace GeneratorInterior

/-- Opaque interned type handle (`Ty<'tcx>`): equality decidable, value
semantics. -/
abbrev Ty := Nat

/-- Handle `CodeExtent`: identifier of a lexical extent, owned by the region maps. -/
abbrev CodeExtent := Nat

/-- The `NodeId` of a HIR node. -/
abbrev NodeId := Nat

/-- Source `Span`: a source location, only carried through `Option Span` results of
the suspension query. -/
abbrev Span := Nat

/-- A deferred obligation produced by successful unification
(`InferOk` obligations registered by `register_infer_ok_obligations`). -/
abbrev Obligation := Nat

/-- The external collaborators the analysis consults, as read-only functions. -/
structure Env where
  /-- Query `tcx.yield_in_extent s _` without its memoization: does extent `s`
  contain a suspension (yield) point, and if so at which span. -/
  yieldInExtent : CodeExtent → Option Span
  /-- Resolver `fcx.resolve_type_vars_if_possible`: canonical form of a type. -/
  resolveTy : Ty → Ty
  /-- Scope map `region_maps.var_scope pat.id`: the extent of a binding; total. -/
  varScope : NodeId → CodeExtent
  /-- Scope map `region_maps.temporary_scope expr.id`: extent of a temporary; optional. -/
  temporaryScope : NodeId → Option CodeExtent
  /-- Table access `fcx.tables.borrow().pat_ty pat`. -/
  patTy : NodeId → Ty
  /-- Table access `fcx.tables.borrow().expr_ty_adjusted expr`. -/
  exprTyAdjusted : NodeId → Ty
  /-- Interner `tcx.intern_tup types false`: the composite tuple type. -/
  internTup : List Ty → Ty
  /-- Unifier `fcx.at(cause, param_env).eq a b`: `some obligations` on success,
  `none` on unification failure. -/
  unify : Ty → Ty → Option (List Obligation)

/-- The memoization cache `FxHashMap<NodeId, Option<Span>>` of
`InteriorVisitor`, keyed by the queried extent. -/
abbrev Cache := List (CodeExtent × Option Span)

/-- Lookup in the cache. -/
def cacheLookup (s : CodeExtent) : Cache → Option (Option Span)
  | [] => none
  | (k, v) :: rest => if k = s then some v else cacheLookup s rest

/-- Memoized query `tcx.yield_in_extent(s, &mut self.cache)`: the suspension query memoized
through the per-run cache. -/
def yieldInExtentCached (env : Env) (s : CodeExtent) (c : Cache) :
    Option Span × Cache :=
  match cacheLookup s c with
  | some r => (r, c)
  | none => (env.yieldInExtent s, (s, env.yieldInExtent s) :: c)

/-- The mutable state of `InteriorVisitor`: the memoization cache and the
accumulating set of recorded types. -/
structure VState where
  cache : Cache
  types : Finset Ty
deriving DecidableEq

/-- Method `InteriorVisitor::record`: decide liveness of one observed value and
conditionally insert its type.  `scope.map(|s| yield_in_extent(s, cache)
.is_some()).unwrap_or(true)`; on a positive decision insert into the set,
on a negative one leave it unchanged.  The `ex` argument (the originating
expression, when any) only feeds the debug log in the source. -/
def record (env : Env) (st : VState) (ty : Ty) (scope : Option CodeExtent)
    (ex : Option NodeId) : VState :=
  match scope with
  | some s =>
    let q := yieldInExtentCached env s st.cache
    if q.fst.isSome then { cache := q.snd, types := insert ty st.types }
    else { cache := q.snd, types := st.types }
  | none =>
    let _ := ex
    { st with types := insert ty st.types }

mutual
/-- A HIR pattern: its node id, whether its kind is `PatKind::Binding`, and
its child nodes (sub-patterns and, e.g. for literal patterns, expressions). -/
inductive Pat : Type where
  | mk (id : NodeId) (binding : Bool) (children : NodeList)
/-- A HIR expression: its node id and its kind. -/
inductive Expr : Type where
  | mk (id : NodeId) (kind : ExprKind)
/-- The shape of an expression's children: a closure or nested generator
literal carries a nested `Body`; every other kind carries its child nodes. -/
inductive ExprKind : Type where
  | closure (b : Body)
  | node (children : NodeList)
/-- A function body: the argument patterns and the value expression. -/
inductive Body : Type where
  | mk (params : PatList) (value : Expr)
/-- A list of mixed pattern/expression children, in visit order. -/
inductive NodeList : Type where
  | nil
  | pcons (p : Pat) (rest : NodeList)
  | econs (e : Expr) (rest : NodeList)
/-- A list of patterns. -/
inductive PatList : Type where
  | nil
  | cons (p : Pat) (rest : PatList)
end

mutual
/-- Method `Visitor::visit_pat` for `InteriorVisitor`: on a `PatKind::Binding`,
record the pattern's type with the binding's variable scope (always present)
and no originating expression; then `intravisit::walk_pat`. -/
def visitPat (env : Env) (st : VState) : Pat → VState
  | .mk id binding children =>
    let st :=
      if binding then
        record env st (env.patTy id) (some (env.varScope id)) none
      else st
    visitNodes env st children
/-- Method `Visitor::visit_expr` for `InteriorVisitor`: record the expression's
adjusted type with its temporary scope (possibly absent) and the expression
itself; then `intravisit::walk_expr`.  A nested body (closure) reached from
here is not traversed: `visit_body` is a no-op. -/
def visitExpr (env : Env) (st : VState) : Expr → VState
  | .mk id k =>
    let st := record env st (env.exprTyAdjusted id) (env.temporaryScope id)
      (some id)
    match k with
    | .closure b => visit_body env st b
    | .node children => visitNodes env st children
/-- Method `Visitor::visit_body` for `InteriorVisitor`: closures inside are not
considered part of the generator interior — a no-op. -/
def visit_body (_env : Env) (st : VState) : Body → VState
  | _ => st
/-- Visit a mixed child list in order. -/
def visitNodes (env : Env) (st : VState) : NodeList → VState
  | .nil => st
  | .pcons p rest => visitNodes env (visitPat env st p) rest
  | .econs e rest => visitNodes env (visitExpr env st e) rest
/-- Visit a pattern list in order. -/
def visitPats (env : Env) (st : VState) : PatList → VState
  | .nil => st
  | .cons p rest => visitPats env (visitPat env st p) rest
end

/-- Walk `intravisit::walk_body` on the generator's own body (called directly by
`resolve_interior`, so the outer body itself is traversed): visit each
argument pattern, then the value expression. -/
def walk_body (env : Env) (st : VState) : Body → VState
  | .mk params value => visitExpr env (visitPats env st params) value

/-- The visitor state `resolve_interior` starts from: empty cache, empty
type set. -/
def initState : VState := { cache := [], types := ∅ }

/-- The recorded type set after traversal of a body. -/
def recordedTypes (env : Env) (b : Body) : Finset Ty :=
  (walk_body env initState b).types

/-- Lines 78–81: resolve every recorded type and recompute set membership
(`.map(|t| fcx.resolve_type_vars_if_possible(&t)).collect()` into a fresh
`FxHashSet`). -/
def dedupResolve (env : Env) (s : Finset Ty) : Finset Ty :=
  s.image env.resolveTy

/-- The deduplicated, resolved interior set of a body. -/
def interiorSet (env : Env) (b : Body) : Finset Ty :=
  dedupResolve env (recordedTypes env b)

/-- The composite tuple type `tcx.intern_tup(&types, false)` built from the
resolved set collected into a sequence (the source fixes no order — the hash
set's iteration order; we pick the sorted sequence of the handles). -/
def interiorTuple (env : Env) (b : Body) : Ty :=
  env.internTup ((interiorSet env b).sort (· ≤ ·))

/-- Outcome of `resolve_interior`: either the deferred obligations were
registered with the inference context (`register_infer_ok_obligations`), or
the analysis aborted fatally (`bug!`). -/
inductive InteriorResult : Type where
  | registered (obligations : List Obligation)
  | fatalBug
deriving DecidableEq

/-- Entry point `resolve_interior`: walk the body, deduplicate and resolve the recorded
types, intern the tuple, and unify it with the caller's witness type;
register the obligations on success, abort with `bug!` on failure. -/
def resolve_interior (env : Env) (b : Body) (witness : Ty) : InteriorResult :=
  match env.unify witness (interiorTuple env b) with
  | some ok => .registered ok
  | none => .fatalBug

/-- One observation handed to `record`: the type, the optional extent, and
the originating expression when the observation came from `visit_expr`. -/
structure Obs where
  ty : Ty
  scope : Option CodeExtent
  fromExpr : Option NodeId
deriving DecidableEq

mutual
/-- The observations `visit_pat` and its recursive walk generate, in order. -/
def patObs (env : Env) : Pat → List Obs
  | .mk id binding children =>
    (if binding then [⟨env.patTy id, some (env.varScope id), none⟩] else [])
      ++ nodesObs env children
/-- The observations `visit_expr` and its recursive walk generate, in order:
the expression's own, then its children's — none from a nested body. -/
def exprObs (env : Env) : Expr → List Obs
  | .mk id k =>
    ⟨env.exprTyAdjusted id, env.temporaryScope id, some id⟩ ::
      (match k with
       | .closure _ => []
       | .node children => nodesObs env children)
/-- Observations of a mixed child list. -/
def nodesObs (env : Env) : NodeList → List Obs
  | .nil => []
  | .pcons p rest => patObs env p ++ nodesObs env rest
  | .econs e rest => exprObs env e ++ nodesObs env rest
/-- Observations of a pattern list. -/
def patsObs (env : Env) : PatList → List Obs
  | .nil => []
  | .cons p rest => patObs env p ++ patsObs env rest
end

/-- All observations a full walk of a body generates, in order. -/
def bodyObs (env : Env) : Body → List Obs
  | .mk params value => patsObs env params ++ exprObs env value

/-- The liveness decision of `record` phrased with the suspension query
asked directly, cache-free: no extent means unconditionally live, an extent
means live iff it contains a suspension point. -/
def liveDirect (env : Env) (scope : Option CodeExtent) : Bool :=
  match scope with
  | none => true
  | some s => (env.yieldInExtent s).isSome

/-- The types of the observations judged live by the direct query. -/
def liveTys (env : Env) (l : List Obs) : List Ty :=
  (l.filter (fun o => liveDirect env o.scope)).map Obs.ty

/-- Replay a list of observations through `record`. -/
def recordAll (env : Env) (st : VState) (l : List Obs) : VState :=
  l.foldl (fun st o => record env st o.ty o.scope o.fromExpr) st

/-- The cache only memoizes true answers of the direct suspension query. -/
def Consistent (env : Env) (c : Cache) : Prop :=
  ∀ s r, (s, r) ∈ c → r = env.yieldInExtent s

/-- A concrete environment: only extent 1 contains a suspension point, type
resolution is already complete (the identity). -/
def envA : Env where
  yieldInExtent s := if s = 1 then some 7 else none
  resolveTy t := t
  varScope n := n
  temporaryScope n := some n
  patTy _ := 10
  exprTyAdjusted n := n + 100
  internTup l := l.length
  unify _ _ := some []

/-- A concrete environment where every extent contains a suspension point and
the unresolved handle 11 resolves to the same canonical type as 10. -/
def envB : Env where
  yieldInExtent _ := some 0
  resolveTy t := if t = 11 then 10 else t
  varScope n := n
  temporaryScope n := some n
  patTy n := if n = 1 then 10 else 11
  exprTyAdjusted _ := 12
  internTup l := l.length
  unify _ _ := some []

/-- A concrete body: two binding patterns (ids 1 and 2) as parameters and a
plain value expression (id 3). -/
def bodyB : Body :=
  Body.mk
    (PatList.cons (Pat.mk 1 true NodeList.nil)
      (PatList.cons (Pat.mk 2 true NodeList.nil) PatList.nil))
    (Expr.mk 3 (ExprKind.node NodeList.nil))

/-- A concrete environment: only extent 1 contains a suspension point; both
bindings have the same type 10; every temporary lives in the dead extent 2. -/
def envC : Env where
  yieldInExtent s := if s = 1 then some 0 else none
  resolveTy t := t
  varScope n := n
  temporaryScope _ := some 2
  patTy _ := 10
  exprTyAdjusted _ := 99
  internTup l := l.length
  unify _ _ := some []

/-- A concrete environment with no suspension point in any extent and a
unifier that always succeeds with no obligations. -/
def envD : Env where
  yieldInExtent _ := none
  resolveTy t := t
  varScope n := n
  temporaryScope n := some n
  patTy _ := 10
  exprTyAdjusted n := n + 100
  internTup l := l.length
  unify _ _ := some []

/-- A concrete body: one binding pattern (id 1) and a plain value
expression (id 2). -/
def bodyD : Body :=
  Body.mk (PatList.cons (Pat.mk 1 true NodeList.nil) PatList.nil)
    (Expr.mk 2 (ExprKind.node NodeList.nil))

theorem consistent_nil (env : Env) : Consistent env [] := by
  intro s r h; cases h

theorem cacheLookup_consistent (env : Env) {c : Cache} (h : Consistent env c)
    {s : CodeExtent} {r : Option Span} (hl : cacheLookup s c = some r) :
    r = env.yieldInExtent s := by
  induction c with
  | nil => simp [cacheLookup] at hl
  | cons kv rest ih =>
    obtain ⟨k, v⟩ := kv
    by_cases hk : k = s
    · have hv : v = r := by simpa [cacheLookup, hk] using hl
      have hm := h k v (List.mem_cons_self _ _)
      rw [← hv, hm, hk]
    · simp [cacheLookup, hk] at hl
      exact ih (fun a b hab => h a b (List.mem_cons_of_mem _ hab)) hl

theorem yieldInExtentCached_fst (env : Env) {c : Cache} (h : Consistent env c)
    (s : CodeExtent) :
    (yieldInExtentCached env s c).fst = env.yieldInExtent s := by
  unfold yieldInExtentCached
  cases hl : cacheLookup s c with
  | none => rfl
  | some r => simpa using cacheLookup_consistent env h hl

theorem yieldInExtentCached_consistent (env : Env) {c : Cache}
    (h : Consistent env c) (s : CodeExtent) :
    Consistent env (yieldInExtentCached env s c).snd := by
  unfold yieldInExtentCached
  cases hl : cacheLookup s c with
  | none =>
    intro a b hab
    rcases List.mem_cons.mp hab with heq | hmem
    · simp at heq; rw [heq.2, heq.1]
    · exact h a b hmem
  | some r => exact h

theorem record_types_of_consistent (env : Env) {st : VState}
    (h : Consistent env st.cache) (ty : Ty) (sc : Option CodeExtent)
    (ex : Option NodeId) :
    (record env st ty sc ex).types =
      if liveDirect env sc then insert ty st.types else st.types := by
  cases sc with
  | none => simp [record, liveDirect]
  | some s =>
    simp only [record, liveDirect]
    rw [yieldInExtentCached_fst env h s]
    by_cases hq : (env.yieldInExtent s).isSome <;> simp [hq]

theorem record_consistent (env : Env) {st : VState}
    (h : Consistent env st.cache) (ty : Ty) (sc : Option CodeExtent)
    (ex : Option NodeId) :
    Consistent env (record env st ty sc ex).cache := by
  cases sc with
  | none => simpa [record] using h
  | some s =>
    simp only [record]
    by_cases hq : ((yieldInExtentCached env s st.cache).fst).isSome <;>
      simpa [hq] using yieldInExtentCached_consistent env h s

theorem recordAll_spec (env : Env) (l : List Obs) :
    ∀ st : VState, Consistent env st.cache →
      (recordAll env st l).types = st.types ∪ (liveTys env l).toFinset ∧
        Consistent env (recordAll env st l).cache := by
  induction l with
  | nil => intro st h; simpa [recordAll, liveTys] using h
  | cons o rest ih =>
    intro st h
    have hstep : recordAll env st (o :: rest) =
        recordAll env (record env st o.ty o.scope o.fromExpr) rest := rfl
    have hrec := ih (record env st o.ty o.scope o.fromExpr)
      (record_consistent env h o.ty o.scope o.fromExpr)
    rw [hstep]
    refine ⟨?_, hrec.2⟩
    rw [hrec.1, record_types_of_consistent env h o.ty o.scope o.fromExpr]
    by_cases hl : liveDirect env o.scope <;>
      simp [liveTys, hl, Finset.insert_union]

theorem recordAll_append (env : Env) (st : VState) (l1 l2 : List Obs) :
    recordAll env st (l1 ++ l2) = recordAll env (recordAll env st l1) l2 :=
  List.foldl_append ..

mutual
theorem visitPat_eq_recordAll (env : Env) (st : VState) :
    (p : Pat) → visitPat env st p = recordAll env st (patObs env p)
  | .mk id b ch => by
    cases b with
    | false =>
      rw [visitPat, patObs]
      simpa using visitNodes_eq_recordAll env st ch
    | true =>
      rw [visitPat, patObs, recordAll_append]
      simpa [recordAll] using
        visitNodes_eq_recordAll env
          (record env st (env.patTy id) (some (env.varScope id)) none) ch
theorem visitExpr_eq_recordAll (env : Env) (st : VState) :
    (e : Expr) → visitExpr env st e = recordAll env st (exprObs env e)
  | .mk id k => by
    cases k with
    | closure b =>
      rw [visitExpr, exprObs]
      rfl
    | node ch =>
      rw [visitExpr, exprObs]
      exact visitNodes_eq_recordAll env
        (record env st (env.exprTyAdjusted id) (env.temporaryScope id)
          (some id)) ch
theorem visitNodes_eq_recordAll (env : Env) (st : VState) :
    (l : NodeList) → visitNodes env st l = recordAll env st (nodesObs env l)
  | .nil => rfl
  | .pcons p rest => by
    rw [visitNodes, nodesObs, recordAll_append,
      visitPat_eq_recordAll env st p]
    exact visitNodes_eq_recordAll env (recordAll env st (patObs env p)) rest
  | .econs e rest => by
    rw [visitNodes, nodesObs, recordAll_append,
      visitExpr_eq_recordAll env st e]
    exact visitNodes_eq_recordAll env (recordAll env st (exprObs env e)) rest
theorem visitPats_eq_recordAll (env : Env) (st : VState) :
    (l : PatList) → visitPats env st l = recordAll env st (patsObs env l)
  | .nil => rfl
  | .cons p rest => by
    rw [visitPats, patsObs, recordAll_append,
      visitPat_eq_recordAll env st p]
    exact visitPats_eq_recordAll env (recordAll env st (patObs env p)) rest
end

theorem walk_body_eq_recordAll (env : Env) (st : VState) (b : Body) :
    walk_body env st b = recordAll env st (bodyObs env b) := by
  obtain ⟨params, value⟩ := b
  rw [walk_body, bodyObs, recordAll_append, visitPats_eq_recordAll env st params]
  exact visitExpr_eq_recordAll env _ value

theorem recordedTypes_eq_liveTys (env : Env) (b : Body) :
    recordedTypes env b = (liveTys env (bodyObs env b)).toFinset := by
  rw [recordedTypes, walk_body_eq_recordAll]
  have hc : Consistent env initState.cache := consistent_nil env
  have h := (recordAll_spec env (bodyObs env b) initState hc).1
  simpa [initState] using h

theorem mem_interiorSet (env : Env) (b : Body) (t : Ty) :
    t ∈ interiorSet env b ↔
      ∃ o ∈ bodyObs env b, liveDirect env o.scope = true ∧
        env.resolveTy o.ty = t := by
  simp only [interiorSet, dedupResolve, recordedTypes_eq_liveTys, liveTys,
    Finset.mem_image, List.mem_toFinset, List.mem_map, List.mem_filter]
  constructor
  · rintro ⟨a, ⟨o, ⟨ho, hlive⟩, hty⟩, hres⟩
    exact ⟨o, ho, hlive, by rw [hty, hres]⟩
  · rintro ⟨o, ho, hlive, hres⟩
    exact ⟨o.ty, ⟨o, ⟨ho, hlive⟩, rfl⟩, hres⟩

theorem record_types_subset (env : Env) (st : VState) (ty : Ty)
    (sc : Option CodeExtent) (ex : Option NodeId) :
    (record env st ty sc ex).types ⊆ insert ty st.types := by
  cases sc with
  | none => simp [record]
  | some s =>
    simp only [record]
    by_cases hq : ((yieldInExtentCached env s st.cache).fst).isSome
    · simp [hq]
    · simp only [hq, if_false]
      exact Finset.subset_insert _ _

mutual
theorem patObs_scoped (env : Env) :
    (p : Pat) → ∀ o ∈ patObs env p, o.fromExpr = none →
      (o.scope).isSome = true
  | .mk id b ch => by
    intro o ho hfe
    rw [patObs] at ho
    rcases List.mem_append.mp ho with h1 | h2
    · cases b with
      | true =>
        have heq : o = ⟨env.patTy id, some (env.varScope id), none⟩ := by
          simpa using h1
        rw [heq]
        rfl
      | false => simp at h1
    · exact nodesObs_scoped env ch o h2 hfe
theorem exprObs_scoped (env : Env) :
    (e : Expr) → ∀ o ∈ exprObs env e, o.fromExpr = none →
      (o.scope).isSome = true
  | .mk id k => by
    cases k with
    | closure b =>
      intro o ho hfe
      rw [exprObs] at ho
      have heq : o = ⟨env.exprTyAdjusted id, env.temporaryScope id, some id⟩ := by
        simpa using ho
      rw [heq] at hfe
      simp at hfe
    | node ch =>
      intro o ho hfe
      rw [exprObs] at ho
      rcases List.mem_cons.mp ho with h1 | h2
      · rw [h1] at hfe; simp at hfe
      · exact nodesObs_scoped env ch o h2 hfe
theorem nodesObs_scoped (env : Env) :
    (l : NodeList) → ∀ o ∈ nodesObs env l, o.fromExpr = none →
      (o.scope).isSome = true
  | .nil => by
    intro o ho
    rw [nodesObs] at ho
    simp at ho
  | .pcons p rest => by
    intro o ho hfe
    rw [nodesObs] at ho
    rcases List.mem_append.mp ho with h1 | h2
    · exact patObs_scoped env p o h1 hfe
    · exact nodesObs_scoped env rest o h2 hfe
  | .econs e rest => by
    intro o ho hfe
    rw [nodesObs] at ho
    rcases List.mem_append.mp ho with h1 | h2
    · exact exprObs_scoped env e o h1 hfe
    · exact nodesObs_scoped env rest o h2 hfe
theorem patsObs_scoped (env : Env) :
    (l : PatList) → ∀ o ∈ patsObs env l, o.fromExpr = none →
      (o.scope).isSome = true
  | .nil => by
    intro o ho
    rw [patsObs] at ho
    simp at ho
  | .cons p rest => by
    intro o ho hfe
    rw [patsObs] at ho
    rcases List.mem_append.mp ho with h1 | h2
    · exact patObs_scoped env p o h1 hfe
    · exact patsObs_scoped env rest o h2 hfe
end

/-- C1: for every observation with an extent present, the type is inserted
into the recorded type set iff the suspension query reports that the extent
contains a suspension point; when the query is negative the set is left
unchanged (and `record` is total — no error path exists). -/
theorem claim_C1 (env : Env) (st : VState) (ty : Ty) (s : CodeExtent)
    (ex : Option NodeId) (h : Consistent env st.cache) :
    (record env st ty (some s) ex).types =
      (if (env.yieldInExtent s).isSome then insert ty st.types
       else st.types) := by
  simpa [liveDirect] using record_types_of_consistent env h ty (some s) ex

theorem claim_C1_witness :
    (record envA initState 10 (some 1) none).types =
      (if (envA.yieldInExtent 1).isSome then insert 10 initState.types
       else initState.types) :=
  claim_C1 envA initState 10 1 none (consistent_nil envA)

/-- C2: in `resolve_interior`, when unification of the computed composite
tuple against the caller's witness type succeeds, the deferred obligations
are registered; when it fails, the analysis aborts with the fatal internal
error `bug!`, never a recoverable outcome. -/
theorem claim_C2 (env : Env) (b : Body) (w : Ty) :
    (∀ obs, env.unify w (interiorTuple env b) = some obs →
      resolve_interior env b w = InteriorResult.registered obs) ∧
    (env.unify w (interiorTuple env b) = none →
      resolve_interior env b w = InteriorResult.fatalBug) := by
  constructor
  · intro obs h
    simp [resolve_interior, h]
  · intro h
    simp [resolve_interior, h]

/-- C3: for every observation with no extent supplied, the type is always
inserted into the recorded type set, whatever the suspension structure of
the body (the environment, hence the suspension query, is arbitrary). -/
theorem claim_C3 (env : Env) (st : VState) (ty : Ty) (ex : Option NodeId) :
    (record env st ty none ex).types = insert ty st.types := rfl

/-- C4: the tree walker does not descend into nested suspendable bodies:
`visit_body` is a no-op, the result of visiting a closure expression is
independent of the nested body it carries, and visiting it adds at most the
closure expression's own type — no binding or expression inside the nested
body contributes a type. -/
theorem claim_C4 (env : Env) (st : VState) (id : NodeId) (b b' : Body) :
    visit_body env st b = st ∧
    visitExpr env st (Expr.mk id (ExprKind.closure b)) =
      visitExpr env st (Expr.mk id (ExprKind.closure b')) ∧
    (visitExpr env st (Expr.mk id (ExprKind.closure b))).types ⊆
      insert (env.exprTyAdjusted id) st.types := by
  refine ⟨rfl, ?_, ?_⟩
  · rw [visitExpr, visitExpr]
    rfl
  · rw [visitExpr]
    exact record_types_subset env st (env.exprTyAdjusted id)
      (env.temporaryScope id) (some id)

/-- C5: the aggregator applies the type resolver to every member of the
recorded set and recomputes membership after resolution, so two recorded
handles with the same canonical form contribute exactly one element to the
final set. -/
theorem claim_C5 (env : Env) (b : Body) (t1 t2 : Ty)
    (h1 : t1 ∈ recordedTypes env b) (_h2 : t2 ∈ recordedTypes env b)
    (heq : env.resolveTy t1 = env.resolveTy t2) :
    interiorSet env b = Finset.image env.resolveTy (recordedTypes env b) ∧
    ((interiorSet env b).filter (fun u => u = env.resolveTy t1)).card = 1 ∧
    env.resolveTy t2 ∈ interiorSet env b := by
  have hmem : env.resolveTy t1 ∈ interiorSet env b :=
    Finset.mem_image_of_mem _ h1
  refine ⟨rfl, ?_, ?_⟩
  · rw [Finset.filter_eq', if_pos hmem]
    exact Finset.card_singleton _
  · rw [← heq]
    exact hmem

theorem claim_C5_witness :
    interiorSet envB bodyB =
      Finset.image envB.resolveTy (recordedTypes envB bodyB) ∧
    ((interiorSet envB bodyB).filter
      (fun u => u = envB.resolveTy 10)).card = 1 ∧
    envB.resolveTy 11 ∈ interiorSet envB bodyB :=
  claim_C5 envB bodyB 10 11 (by decide) (by decide) (by decide)

/-- C6 as stated is refuted: with two bindings of the same type 10, one in
live extent 1 and one in dead extent 2, the final set contains 10, which is
the type of a binding whose extent contains no suspension point. -/
theorem claim_C6_counterexample :
    Obs.mk 10 (some 2) none ∈ bodyObs envC bodyB ∧
    envC.yieldInExtent 2 = none ∧
    envC.resolveTy 10 ∈ interiorSet envC bodyB := by
  decide

/-- C6 amended: after traversal the set contains exactly the resolved forms
of the types of observations judged live-across-suspension (so a type whose
every observation has a suspension-free extent is absent), and, when the
resolver is idempotent, every member is canonical; as a finite set it holds
no duplicates. -/
theorem claim_C6 (env : Env) (b : Body) :
    (∀ t, t ∈ interiorSet env b ↔
      ∃ o ∈ bodyObs env b, liveDirect env o.scope = true ∧
        env.resolveTy o.ty = t) ∧
    (∀ t ∈ interiorSet env b,
      (∀ u, env.resolveTy (env.resolveTy u) = env.resolveTy u) →
        env.resolveTy t = t) := by
  refine ⟨fun t => mem_interiorSet env b t, ?_⟩
  intro t ht hid
  rcases (mem_interiorSet env b t).mp ht with ⟨o, _, _, hres⟩
  rw [← hres, hid]

/-- C7: a body in which no extent contains a suspension point and every
observation carries an extent records nothing; the composite is the empty
tuple, and when the unifier accepts it against the witness, the analysis
registers the obligations instead of aborting. -/
theorem claim_C7 (env : Env) (b : Body) (w : Ty)
    (hns : ∀ s, env.yieldInExtent s = none)
    (hsc : ∀ o ∈ bodyObs env b, (o.scope).isSome = true) :
    recordedTypes env b = ∅ ∧ interiorSet env b = ∅ ∧
    interiorTuple env b = env.internTup [] ∧
    ∀ obs, env.unify w (env.internTup []) = some obs →
      resolve_interior env b w = InteriorResult.registered obs := by
  have hlive : liveTys env (bodyObs env b) = [] := by
    rw [liveTys, List.map_eq_nil_iff, List.filter_eq_nil_iff]
    intro o ho
    rcases Option.isSome_iff_exists.mp (hsc o ho) with ⟨s, hs⟩
    simp [liveDirect, hs, hns s]
  have hrec : recordedTypes env b = ∅ := by
    rw [recordedTypes_eq_liveTys, hlive]
    rfl
  have hset : interiorSet env b = ∅ := by
    rw [interiorSet, hrec, dedupResolve]
    rfl
  have htup : interiorTuple env b = env.internTup [] := by
    rw [interiorTuple, hset, Finset.sort_empty]
  refine ⟨hrec, hset, htup, ?_⟩
  intro obs hobs
  rw [resolve_interior, htup, hobs]

theorem claim_C7_witness :
    recordedTypes envD bodyD = ∅ ∧ interiorSet envD bodyD = ∅ ∧
    interiorTuple envD bodyD = envD.internTup [] ∧
    ∀ obs, envD.unify 5 (envD.internTup []) = some obs →
      resolve_interior envD bodyD 5 = InteriorResult.registered obs :=
  claim_C7 envD bodyD 5 (fun _ => rfl) (by decide)

/-- C8: the aggregator's resolve-then-dedup step is idempotent when the
resolver is: applying it twice to a recorded type set yields the same final
set as applying it once. -/
theorem claim_C8 (env : Env) (s : Finset Ty)
    (hid : ∀ t, env.resolveTy (env.resolveTy t) = env.resolveTy t) :
    dedupResolve env (dedupResolve env s) = dedupResolve env s := by
  simp only [dedupResolve]
  rw [Finset.image_image]
  exact Finset.image_congr (fun t _ => hid t)

theorem claim_C8_witness :
    dedupResolve envB (dedupResolve envB {10, 11, 12}) =
      dedupResolve envB {10, 11, 12} :=
  claim_C8 envB {10, 11, 12}
    (fun t => by by_cases h : t = 11 <;> simp [envB, h])

/-- C9: memoizing the suspension query changes no liveness decision: a full
run started on the empty cache records exactly the types the direct
(cache-free) query judges live, the final cache stays consistent with the
direct query, and querying any extent through the final cache returns the
direct query's answer. -/
theorem claim_C9 (env : Env) (s0 : Finset Ty) (b : Body) :
    (walk_body env { cache := [], types := s0 } b).types =
      s0 ∪ (liveTys env (bodyObs env b)).toFinset ∧
    Consistent env (walk_body env { cache := [], types := s0 } b).cache ∧
    ∀ s, (yieldInExtentCached env s
        (walk_body env { cache := [], types := s0 } b).cache).fst =
      env.yieldInExtent s := by
  rw [walk_body_eq_recordAll]
  have h := recordAll_spec env (bodyObs env b) { cache := [], types := s0 }
    (consistent_nil env)
  exact ⟨h.1, h.2, fun s => yieldInExtentCached_fst env h.2 s⟩

/-- C10: every binding-pattern observation carries an extent (the binding's
variable scope is always supplied), so the unconditional-live default can
only apply to expression observations lacking a temporary scope: any
observation without an originating expression has an extent. -/
theorem claim_C10 (env : Env) (b : Body) (o : Obs)
    (hmem : o ∈ bodyObs env b) (hbind : o.fromExpr = none) :
    (o.scope).isSome = true := by
  obtain ⟨params, value⟩ := b
  rw [bodyObs] at hmem
  rcases List.mem_append.mp hmem with h1 | h2
  · exact patsObs_scoped env params o h1 hbind
  · exact exprObs_scoped env value o h2 hbind

theorem claim_C10_witness :
    ((Obs.mk 10 (some 1) none).scope).isSome = true :=
  claim_C10 envC bodyB (Obs.mk 10 (some 1) none) (by decide) rfl

end GeneratorInterior
